import Mathlib

/-!
Shallow embedding of `src/langchain_utils.py` (class `SnippetsBufferWindowMemory`
and its constructor/caller), the retrieval-backed snippet memory buffer.

The retrieval call `search_faiss_index(self.index, ...)` is an external
collaborator (module `search_indexing`, the RetrievalPort); following the
source, `load_memory_variables` is embedded as a function taking the retrieved
candidate list as an argument.  The FAISS index, the prompt template and the
model call play no role in the buffer policy and are not modelled.
-/

/-- A retrieved document snippet as consumed by
`SnippetsBufferWindowMemory.load_memory_variables`:
`page_content` is the body text, and `source`, `title`, `page` mirror
`snippet.metadata['source']`, `snippet.metadata['title']`,
`snippet.metadata['page']` (a non-negative page number). -/
structure Snippet where
  page_content : String
  source : String
  title : String
  page : Nat
deriving DecidableEq, Repr

/-- The formatted block built for one candidate snippet
(`src/langchain_utils.py` lines 40-48): a header line (`source` alone when
`title == source`, else the link rendering), a start marker tagged with
`page + 1`, the body, and an end marker tagged with `page + 1`, each piece
terminated by a newline.  The block is both the display unit and the
deduplication key. -/
def formatSnippet (snippet : Snippet) : String :=
  (if snippet.title == snippet.source then
    snippet.source ++ "\n"
   else
    "[" ++ snippet.title ++ "](" ++ snippet.source ++ ")\n")
  ++ ("<START_SNIPPET_PAGE_" ++ toString (snippet.page + 1) ++ ">\n")
  ++ (snippet.page_content ++ "\n")
  ++ ("<END_SNIPPET_PAGE_" ++ toString (snippet.page + 1) ++ ">\n")

/-- The `for snippet in similar_snippets` loop of `load_memory_variables`
(lines 37-51): walk the candidates in retrieval order and append the page and
the formatted block to the (already reversed) `pages`/`snippets` lists when the
block is not yet present in the growing `snippets` list. -/
def loadLoop : List Snippet → List Nat → List String → List Nat × List String
  | [], pages, snippets => (pages, snippets)
  | snippet :: rest, pages, snippets =>
    let snippet_to_add := formatSnippet snippet
    if snippet_to_add ∈ snippets then
      loadLoop rest pages snippets
    else
      loadLoop rest (pages ++ [snippet.page]) (snippets ++ [snippet_to_add])

/-- The mutable state of a `SnippetsBufferWindowMemory` instance: the window
size `k` (inherited from `ConversationBufferWindowMemory`), the held page
numbers and the held formatted snippet blocks (class fields `pages` and
`snippets`). -/
structure Memory where
  k : Nat
  pages : List Nat
  snippets : List String
deriving DecidableEq, Repr

/-- `SnippetsBufferWindowMemory.load_memory_variables` (lines 24-59), with the
retrieval result passed in: reverse `snippets` and `pages`, run the merge loop
over the candidates, reverse both lists back and truncate them to the first
`k` elements; return the new state together with the joined snippet text
(the value stored under the `snippets` memory key). -/
def load_memory_variables (memory : Memory) (similar_snippets : List Snippet) :
    Memory × String :=
  let snippets0 := memory.snippets.reverse
  let pages0 := memory.pages.reverse
  let looped := loadLoop similar_snippets pages0 snippets0
  let snippets1 := looped.2.reverse.take memory.k
  let pages1 := looped.1.reverse.take memory.k
  ({ memory with pages := pages1, snippets := snippets1 },
   String.join snippets1)

/-- A fresh `SnippetsBufferWindowMemory` as built by `__init__` together with
the class-level field defaults (lines 15-22): empty `pages` and `snippets`,
window size `k` passed through to the parent constructor unchecked. -/
def initMemory (k : Nat) : Memory :=
  { k := k, pages := [], snippets := [] }

/-- Run a sequence of `load_memory_variables` calls (one conversation turn
each), keeping only the evolving buffer state. -/
def runUpdates (memory : Memory) (updates : List (List Snippet)) : Memory :=
  updates.foldl (fun m cands => (load_memory_variables m cands).1) memory

/-- The merge loop acting on a single list of `(page, block)` pairs instead of
the two parallel lists; used to relate the implementation to the spec's stack
restatement. -/
def loadLoopPairs : List Snippet → List (Nat × String) → List (Nat × String)
  | [], held => held
  | snippet :: rest, held =>
    let block := formatSnippet snippet
    if block ∈ held.map Prod.snd then
      loadLoopPairs rest held
    else
      loadLoopPairs rest (held ++ [(snippet.page, block)])

/-- Modelled from the spec: one push of the stack restatement — a candidate
whose block is already on the stack is dropped, otherwise its
`(page, block)` pair is pushed onto the top (the front). -/
def pushNew (st : List (Nat × String)) (snippet : Snippet) :
    List (Nat × String) :=
  if formatSnippet snippet ∈ st.map Prod.snd then st
  else (snippet.page, formatSnippet snippet) :: st

/-- Modelled from the spec: the reference stack restatement of the merge —
push each new unique `(page, block)` item onto the front of the held list in
retrieval order, then keep only the first `k_snippets` elements. -/
def stackMerge (k : Nat) (held : List (Nat × String)) (cands : List Snippet) :
    List (Nat × String) :=
  (cands.foldl pushNew held).take k

/-- Concrete snippet `A` used in worked examples. -/
def exA : Snippet := { page_content := "body A", source := "srcA", title := "srcA", page := 0 }

/-- Concrete snippet `B` used in worked examples. -/
def exB : Snippet := { page_content := "body B", source := "srcB", title := "srcB", page := 1 }

/-- Concrete snippet `C` used in worked examples. -/
def exC : Snippet := { page_content := "body C", source := "srcC", title := "srcC", page := 2 }

/-- Concrete snippet `D` used in worked examples. -/
def exD : Snippet := { page_content := "body D", source := "srcD", title := "srcD", page := 3 }

/-- The held state `[A, B]` (with `k_snippets = 2`) of the spec's
no-duplicate-re-insertion worked example. -/
def heldAB : Memory :=
  { k := 2, pages := [0, 1],
    snippets := [formatSnippet exA, formatSnippet exB] }

/-- The merge loop only ever appends: it extends `pages` and `snippets` with
the projections of a list of `(page, block)` pairs, each built from a candidate
whose block was not previously present, and the appended blocks are pairwise
distinct. -/
theorem loadLoop_eq (cands : List Snippet) :
    ∀ pages snippets, ∃ added : List (Nat × String),
      loadLoop cands pages snippets
        = (pages ++ added.map Prod.fst, snippets ++ added.map Prod.snd)
      ∧ (∀ pb ∈ added,
          pb.2 ∉ snippets ∧ ∃ c ∈ cands, pb = (c.page, formatSnippet c))
      ∧ (added.map Prod.snd).Nodup := by
  induction cands with
  | nil =>
    intro pages snippets
    exact ⟨[], by simp [loadLoop], by simp, by simp⟩
  | cons c rest ih =>
    intro pages snippets
    by_cases h : formatSnippet c ∈ snippets
    · obtain ⟨added, h1, h2, h3⟩ := ih pages snippets
      refine ⟨added, ?_, ?_, h3⟩
      · simpa [loadLoop, h] using h1
      · intro pb hpb
        obtain ⟨hns, c', hc', he⟩ := h2 pb hpb
        exact ⟨hns, c', List.mem_cons_of_mem _ hc', he⟩
    · obtain ⟨added, h1, h2, h3⟩ :=
        ih (pages ++ [c.page]) (snippets ++ [formatSnippet c])
      refine ⟨(c.page, formatSnippet c) :: added, ?_, ?_, ?_⟩
      · simpa [loadLoop, h, List.append_assoc] using h1
      · intro pb hpb
        rcases List.mem_cons.mp hpb with hpb | hpb
        · subst hpb
          exact ⟨h, c, List.mem_cons_self c rest, rfl⟩
        · obtain ⟨hns, c', hc', he⟩ := h2 pb hpb
          refine ⟨fun hx => hns (List.mem_append_left _ hx),
            c', List.mem_cons_of_mem _ hc', he⟩
      · rw [List.map_cons]
        refine List.nodup_cons.mpr ⟨?_, h3⟩
        intro hx
        obtain ⟨pb, hpb, hpb2⟩ := List.mem_map.mp hx
        exact (h2 pb hpb).1
          (List.mem_append_right _ (by simp [hpb2]))

/-- `load_memory_variables` in closed form: the new state keeps `k`, and both
held lists are reversed batches of fresh `(page, block)` pairs prepended to the
old lists, truncated to `k`. -/
theorem load_memory_variables_eq (m : Memory) (cands : List Snippet) :
    ∃ added : List (Nat × String),
      (load_memory_variables m cands).1
        = { k := m.k,
            pages := ((added.map Prod.fst).reverse ++ m.pages).take m.k,
            snippets := ((added.map Prod.snd).reverse ++ m.snippets).take m.k }
      ∧ (∀ pb ∈ added,
          pb.2 ∉ m.snippets ∧ ∃ c ∈ cands, pb = (c.page, formatSnippet c))
      ∧ (added.map Prod.snd).Nodup := by
  obtain ⟨added, h1, h2, h3⟩ := loadLoop_eq cands m.pages.reverse m.snippets.reverse
  refine ⟨added, ?_, ?_, h3⟩
  · simp [load_memory_variables, h1, List.reverse_append]
  · intro pb hpb
    obtain ⟨hns, rest⟩ := h2 pb hpb
    exact ⟨fun hx => hns (List.mem_reverse.mpr hx), rest⟩

/-- An update never changes the configured window size. -/
theorem load_k (m : Memory) (cands : List Snippet) :
    (load_memory_variables m cands).1.k = m.k := by
  simp [load_memory_variables]

/-- After an update the held snippet list has length at most `k`. -/
theorem load_snippets_length (m : Memory) (cands : List Snippet) :
    (load_memory_variables m cands).1.snippets.length ≤ m.k := by
  simp only [load_memory_variables]
  exact List.length_take_le _ _

/-- After an update the held page list has length at most `k`. -/
theorem load_pages_length (m : Memory) (cands : List Snippet) :
    (load_memory_variables m cands).1.pages.length ≤ m.k := by
  simp only [load_memory_variables]
  exact List.length_take_le _ _

/-- An update preserves distinctness of the held blocks. -/
theorem load_snippets_nodup (m : Memory) (cands : List Snippet)
    (h : m.snippets.Nodup) :
    (load_memory_variables m cands).1.snippets.Nodup := by
  obtain ⟨added, h1, h2, h3⟩ := load_memory_variables_eq m cands
  rw [h1]
  refine List.Nodup.sublist (List.take_sublist _ _) ?_
  refine List.Nodup.append (List.nodup_reverse.mpr h3) h ?_
  intro b hb hb2
  obtain ⟨pb, hpb, hpb2⟩ := List.mem_map.mp (List.mem_reverse.mp hb)
  exact (h2 pb hpb).1 (hpb2 ▸ hb2)

/-- Unfolding one step of a run of updates. -/
theorem runUpdates_cons (m : Memory) (cs : List Snippet)
    (css : List (List Snippet)) :
    runUpdates m (cs :: css) = runUpdates (load_memory_variables m cs).1 css :=
  rfl

/-- A run of updates never changes the configured window size. -/
theorem runUpdates_k (css : List (List Snippet)) :
    ∀ m : Memory, (runUpdates m css).k = m.k := by
  induction css with
  | nil => intro m; rfl
  | cons cs css ih =>
    intro m
    rw [runUpdates_cons, ih, load_k]

/-- Capacity and distinctness are preserved by any run of updates. -/
theorem runUpdates_invariant (css : List (List Snippet)) :
    ∀ m : Memory, m.snippets.length ≤ m.k → m.snippets.Nodup →
      (runUpdates m css).snippets.length ≤ m.k
      ∧ (runUpdates m css).snippets.Nodup := by
  induction css with
  | nil => intro m h1 h2; exact ⟨h1, h2⟩
  | cons cs css ih =>
    intro m h1 h2
    rw [runUpdates_cons]
    have hk : (load_memory_variables m cs).1.k = m.k := load_k m cs
    have := ih (load_memory_variables m cs).1
      (by rw [hk]; exact load_snippets_length m cs)
      (load_snippets_nodup m cs h2)
    rwa [hk] at this

/-- When every candidate's block is already held, the merge loop is the
identity. -/
theorem loadLoop_of_all_mem (cands : List Snippet) :
    ∀ pages snippets, (∀ c ∈ cands, formatSnippet c ∈ snippets) →
      loadLoop cands pages snippets = (pages, snippets) := by
  induction cands with
  | nil => intro pages snippets _; rfl
  | cons c rest ih =>
    intro pages snippets h
    have hc : formatSnippet c ∈ snippets := h c (List.mem_cons_self c rest)
    simp only [loadLoop, if_pos hc]
    exact ih pages snippets fun c' hc' => h c' (List.mem_cons_of_mem _ hc')

/-- The two parallel held lists evolve exactly as the projections of the
single pair-list merge loop. -/
theorem loadLoop_pairs_eq (cands : List Snippet) :
    ∀ l : List (Nat × String),
      loadLoop cands (l.map Prod.fst) (l.map Prod.snd)
        = ((loadLoopPairs cands l).map Prod.fst,
           (loadLoopPairs cands l).map Prod.snd) := by
  induction cands with
  | nil => intro l; rfl
  | cons c rest ih =>
    intro l
    by_cases h : formatSnippet c ∈ l.map Prod.snd
    · simp only [loadLoop, loadLoopPairs, if_pos h]
      exact ih l
    · simp only [loadLoop, loadLoopPairs, if_neg h]
      have := ih (l ++ [(c.page, formatSnippet c)])
      simpa using this

/-- Reversing before and after the append-only pair merge is the same as
folding the stack pushes over the held list directly. -/
theorem loadLoopPairs_reverse_push (cands : List Snippet) :
    ∀ l : List (Nat × String),
      (loadLoopPairs cands l.reverse).reverse = cands.foldl pushNew l := by
  induction cands with
  | nil => intro l; simp [loadLoopPairs]
  | cons c rest ih =>
    intro l
    have hmem : (formatSnippet c ∈ l.reverse.map Prod.snd)
        ↔ (formatSnippet c ∈ l.map Prod.snd) := by
      rw [List.map_reverse]
      exact List.mem_reverse
    by_cases h : formatSnippet c ∈ l.map Prod.snd
    · simp only [loadLoopPairs, if_pos (hmem.mpr h), List.foldl_cons,
        pushNew, if_pos h]
      exact ih l
    · have hrev : l.reverse ++ [(c.page, formatSnippet c)]
          = ((c.page, formatSnippet c) :: l).reverse := by simp
      simp only [loadLoopPairs, if_neg (fun hx => h (hmem.mp hx)),
        List.foldl_cons, pushNew, if_neg h]
      rw [hrev]
      exact ih ((c.page, formatSnippet c) :: l)

/-- One update maps a paired representation of the state to a paired
representation, each surviving pair either previously held or built from one
of this update's candidates. -/
theorem load_pairs_step (m : Memory) (cands : List Snippet)
    (l : List (Nat × String))
    (h1 : m.pages = l.map Prod.fst) (h2 : m.snippets = l.map Prod.snd) :
    ∃ l' : List (Nat × String),
      (load_memory_variables m cands).1.pages = l'.map Prod.fst
      ∧ (load_memory_variables m cands).1.snippets = l'.map Prod.snd
      ∧ ∀ pb ∈ l', pb ∈ l ∨ ∃ c ∈ cands, pb = (c.page, formatSnippet c) := by
  obtain ⟨added, he, hmem, _⟩ := load_memory_variables_eq m cands
  refine ⟨(added.reverse ++ l).take m.k, ?_, ?_, ?_⟩
  · rw [he]
    simp [h1, List.map_take, List.map_append, List.map_reverse]
  · rw [he]
    simp [h2, List.map_take, List.map_append, List.map_reverse]
  · intro pb hpb
    have hx : pb ∈ added.reverse ++ l := List.mem_of_mem_take hpb
    rcases List.mem_append.mp hx with hy | hy
    · exact Or.inr ((hmem pb (List.mem_reverse.mp hy)).2)
    · exact Or.inl hy

/-- Across a whole run of updates, the two held lists stay the projections of
one pair list whose members all originate in some update's candidates or in
the starting state. -/
theorem runUpdates_pairs (css : List (List Snippet)) :
    ∀ (m : Memory) (l : List (Nat × String)),
      m.pages = l.map Prod.fst → m.snippets = l.map Prod.snd →
      ∃ l' : List (Nat × String),
        (runUpdates m css).pages = l'.map Prod.fst
        ∧ (runUpdates m css).snippets = l'.map Prod.snd
        ∧ ∀ pb ∈ l', pb ∈ l
            ∨ ∃ c ∈ css.join, pb = (c.page, formatSnippet c) := by
  induction css with
  | nil =>
    intro m l h1 h2
    exact ⟨l, h1, h2, fun pb hpb => Or.inl hpb⟩
  | cons cs css ih =>
    intro m l h1 h2
    obtain ⟨l1, g1, g2, g3⟩ := load_pairs_step m cs l h1 h2
    obtain ⟨l', f1, f2, f3⟩ := ih (load_memory_variables m cs).1 l1 g1 g2
    rw [runUpdates_cons]
    refine ⟨l', f1, f2, ?_⟩
    intro pb hpb
    have hjoin : (cs :: css).join = cs ++ css.join := rfl
    rcases f3 pb hpb with hx | ⟨c, hc, he⟩
    · rcases g3 pb hx with hy | ⟨c, hc, he⟩
      · exact Or.inl hy
      · exact Or.inr ⟨c, by rw [hjoin]; exact List.mem_append_left _ hc, he⟩
    · exact Or.inr ⟨c, by rw [hjoin]; exact List.mem_append_right _ hc, he⟩

/-- Getting an element of a list known to be a projection of a pair list. -/
theorem get_map_eq {α β : Type} (f : α → β) (l : List α) (L : List β)
    (h : L = l.map f) (i : Nat) (hi : i < L.length) (hi' : i < l.length) :
    L.get ⟨i, hi⟩ = f (l.get ⟨i, hi'⟩) := by
  subst h
  simp

/-- When every candidate's block is already held and the held list is within
capacity, an update leaves the held snippet list unchanged. -/
theorem load_snippets_of_all_mem (m : Memory) (cands : List Snippet)
    (hmem : ∀ c ∈ cands, formatSnippet c ∈ m.snippets)
    (hlen : m.snippets.length ≤ m.k) :
    (load_memory_variables m cands).1.snippets = m.snippets := by
  have hloop := loadLoop_of_all_mem cands m.pages.reverse m.snippets.reverse
    (fun c hc => List.mem_reverse.mpr (hmem c hc))
  simp only [load_memory_variables, hloop]
  simp [List.take_of_length_le hlen]

/-- A window constructed with `k = 0` is a fixed point of every update. -/
theorem load_k_zero (cands : List Snippet) :
    (load_memory_variables (initMemory 0) cands).1 = initMemory 0 := by
  obtain ⟨added, he, _, _⟩ := load_memory_variables_eq (initMemory 0) cands
  rw [he]
  simp [initMemory]

/-- Claim C1: the spec's recency-bias worked example says that with
`k_snippets = 2`, updating the empty window with retrieval `[A, B]` (A more
relevant, hence first) leaves held `[A, B]`, and a second update retrieving
`[C]` leaves `[C, A]`.  The code instead reverses the relative order of a
multi-element batch: it holds `[B, A]` after the first update and `[C, B]`
after the second, evicting A (the batch's most relevant entry) rather than B.
This theorem evaluates the implementation at the example's inputs. -/
theorem C1_recency_bias_code_eval :
    (runUpdates (initMemory 2) [[exA, exB]]).snippets
        = [formatSnippet exB, formatSnippet exA]
    ∧ (runUpdates (initMemory 2) [[exA, exB]]).snippets
        ≠ [formatSnippet exA, formatSnippet exB]
    ∧ (runUpdates (initMemory 2) [[exA, exB], [exC]]).snippets
        = [formatSnippet exC, formatSnippet exB]
    ∧ (runUpdates (initMemory 2) [[exA, exB], [exC]]).snippets
        ≠ [formatSnippet exC, formatSnippet exA] := by
  refine ⟨by decide, by decide, by decide, by decide⟩

/-- Claim C2 (counterexample): updating twice with the identical candidate
list `[A, B, C]` on a `k = 2` window does not leave the held sequence
unchanged — truncation drops A's block after the first call, so the second
call re-admits it and the held sequence differs. -/
theorem C2_idempotence_counterexample :
    (runUpdates (initMemory 2) [[exA, exB, exC], [exA, exB, exC]]).snippets
      ≠ (runUpdates (initMemory 2) [[exA, exB, exC]]).snippets := by
  decide

/-- Claim C2 (amended): dedup is idempotent provided every candidate's
formatted block is still held after the first update (which fails only when
truncation evicted one of them): the second identical update then leaves the
held snippet sequence byte-for-byte unchanged. -/
theorem C2_idempotence_amended (m : Memory) (cands : List Snippet)
    (h : ∀ c ∈ cands,
      formatSnippet c ∈ (load_memory_variables m cands).1.snippets) :
    (load_memory_variables (load_memory_variables m cands).1 cands).1.snippets
      = (load_memory_variables m cands).1.snippets := by
  refine load_snippets_of_all_mem _ cands h ?_
  rw [load_k m cands]
  exact load_snippets_length m cands

/-- Witness for C2 (amended): with `k = 2` and candidates `[A, B]`, both
blocks survive the first update, and the second identical update changes
nothing. -/
theorem C2_idempotence_amended_witness :
    (∀ c ∈ [exA, exB],
      formatSnippet c ∈ (load_memory_variables (initMemory 2) [exA, exB]).1.snippets)
    ∧ (load_memory_variables
        (load_memory_variables (initMemory 2) [exA, exB]).1 [exA, exB]).1.snippets
      = (load_memory_variables (initMemory 2) [exA, exB]).1.snippets :=
  ⟨by decide, C2_idempotence_amended (initMemory 2) [exA, exB] (by decide)⟩

/-- Claim C3: starting from the empty window, after every sequence of updates
the held snippet list has length at most `k_snippets` and no two held blocks
are character-identical. -/
theorem C3_capacity_invariant (k : Nat) (css : List (List Snippet)) :
    (runUpdates (initMemory k) css).snippets.length ≤ k
    ∧ (runUpdates (initMemory k) css).snippets.Nodup := by
  have h := runUpdates_invariant css (initMemory k) (by simp [initMemory])
    (by simp [initMemory])
  simpa [initMemory] using h

/-- Claim C4: an update only prepends blocks that were not previously held
(a duplicate candidate is never re-added and never refreshes the position of
the entry already held), and the previously held entries keep their relative
order, surviving as a prefix of the old list at the tail of the new one;
concretely, from held `[A, B]` with `k = 2`, retrieving `[B, C]` yields
`[C, A]`. -/
theorem C4_no_duplicate_reinsertion :
    (∀ (m : Memory) (cands : List Snippet),
      ∃ newBlocks : List String,
        (∀ b ∈ newBlocks, b ∉ m.snippets)
        ∧ (load_memory_variables m cands).1.snippets
            = (newBlocks ++ m.snippets).take m.k)
    ∧ (load_memory_variables heldAB [exB, exC]).1.snippets
        = [formatSnippet exC, formatSnippet exA] := by
  constructor
  · intro m cands
    obtain ⟨added, he, hmem, _⟩ := load_memory_variables_eq m cands
    refine ⟨(added.map Prod.snd).reverse, ?_, ?_⟩
    · intro b hb
      obtain ⟨pb, hpb, hpb2⟩ := List.mem_map.mp (List.mem_reverse.mp hb)
      exact hpb2 ▸ (hmem pb hpb).1
    · rw [he]
  · decide

/-- Claim C5: the implemented double-reversal merge (reverse the held pairs,
append each new unique candidate, reverse back, truncate to `k`) produces
exactly the state of the spec's stack restatement (push new unique items onto
the front, keep the first `k`), for every held pair list and candidate list. -/
theorem C5_double_reversal_stack_equivalence (k : Nat)
    (l : List (Nat × String)) (cands : List Snippet) :
    (load_memory_variables
        { k := k, pages := l.map Prod.fst, snippets := l.map Prod.snd }
        cands).1.pages
      = (stackMerge k l cands).map Prod.fst
    ∧ (load_memory_variables
        { k := k, pages := l.map Prod.fst, snippets := l.map Prod.snd }
        cands).1.snippets
      = (stackMerge k l cands).map Prod.snd := by
  simp only [load_memory_variables, stackMerge]
  rw [← List.map_reverse, ← List.map_reverse, loadLoop_pairs_eq cands l.reverse]
  constructor
  · rw [show ((loadLoopPairs cands l.reverse).map Prod.fst,
        (loadLoopPairs cands l.reverse).map Prod.snd).1
        = (loadLoopPairs cands l.reverse).map Prod.fst from rfl]
    rw [← List.map_reverse, loadLoopPairs_reverse_push cands l, List.map_take]
  · rw [show ((loadLoopPairs cands l.reverse).map Prod.fst,
        (loadLoopPairs cands l.reverse).map Prod.snd).2
        = (loadLoopPairs cands l.reverse).map Prod.snd from rfl]
    rw [← List.map_reverse, loadLoopPairs_reverse_push cands l, List.map_take]

/-- Claim C6: an update whose retrieval returns no candidates leaves a
within-capacity window (held snippets and pages) exactly unchanged. -/
theorem C6_empty_retrieval_frame (m : Memory)
    (hs : m.snippets.length ≤ m.k) (hp : m.pages.length ≤ m.k) :
    (load_memory_variables m []).1 = m := by
  simp [load_memory_variables, loadLoop, List.take_of_length_le, hs, hp]

/-- Witness for C6: the two-element held state `[A, B]` with `k = 2` is left
unchanged by an empty retrieval. -/
theorem C6_empty_retrieval_frame_witness :
    (load_memory_variables heldAB []).1 = heldAB :=
  C6_empty_retrieval_frame heldAB (by decide) (by decide)

/-- Claim C7: the formatted block is the header line — `sourceId` alone when
`title = sourceId`, the link rendering `[title](sourceId)` otherwise — then a
start marker tagged `page + 1`, the raw body, and an end marker tagged
`page + 1`, joined by line breaks. -/
theorem C7_formatting (s : Snippet) :
    formatSnippet s
      = (if s.title = s.source then s.source
         else "[" ++ s.title ++ "](" ++ s.source ++ ")") ++ "\n"
        ++ ("<START_SNIPPET_PAGE_" ++ toString (s.page + 1) ++ ">") ++ "\n"
        ++ s.page_content ++ "\n"
        ++ ("<END_SNIPPET_PAGE_" ++ toString (s.page + 1) ++ ">") ++ "\n" := by
  have hgt : ∀ r : String, ">" ++ ("\n" ++ r) = ">\n" ++ r := by
    intro r
    rw [← String.append_assoc]
    rfl
  have hcl : ∀ r : String, ")" ++ ("\n" ++ r) = ")\n" ++ r := by
    intro r
    rw [← String.append_assoc]
    rfl
  by_cases h : s.title = s.source
  · rw [formatSnippet, if_pos (show (s.title == s.source) = true from beq_iff_eq.mpr h),
      if_pos h]
    simp only [String.append_assoc, hgt]
    rfl
  · rw [formatSnippet,
      if_neg (show ¬(s.title == s.source) = true from fun hx => h (beq_iff_eq.mp hx)),
      if_neg h]
    simp only [String.append_assoc, hgt, hcl]
    rfl

/-- Claim C8 (counterexample): construction performs no validation of the
window size — `__init__` only forwards to the parent constructor and stores
the index.  With the non-positive size `k = 0` the constructor returns a
working window and an update runs normally (holding nothing and rendering the
empty string) instead of surfacing a `ConfigurationError`. -/
theorem C8_config_counterexample :
    initMemory 0 = { k := 0, pages := [], snippets := [] }
    ∧ (load_memory_variables (initMemory 0) [exA]).1.snippets = []
    ∧ (load_memory_variables (initMemory 0) [exA]).2 = "" := by
  refine ⟨rfl, by decide, by decide⟩

/-- Claim C8 (amended): no window-size validation exists; a window constructed
with the non-positive size `k = 0` is accepted without error and simply
operates with that size, never retaining anything across any sequence of
updates. -/
theorem C8_config_amended (css : List (List Snippet)) :
    runUpdates (initMemory 0) css = initMemory 0 := by
  induction css with
  | nil => rfl
  | cons cs css ih =>
    rw [runUpdates_cons, load_k_zero cs, ih]

/-- Claim C9: starting from the empty window, after any sequence of updates
the held page list and snippet list have equal length, and the i-th page is
the page number of a candidate snippet (from one of the updates) whose
formatted block is the i-th held block. -/
theorem C9_pages_snippets_sync (k : Nat) (css : List (List Snippet)) :
    (runUpdates (initMemory k) css).pages.length
        = (runUpdates (initMemory k) css).snippets.length
    ∧ ∀ i (hi : i < (runUpdates (initMemory k) css).pages.length)
        (hj : i < (runUpdates (initMemory k) css).snippets.length),
      ∃ c, c ∈ css.join
        ∧ (runUpdates (initMemory k) css).pages.get ⟨i, hi⟩ = c.page
        ∧ (runUpdates (initMemory k) css).snippets.get ⟨i, hj⟩
            = formatSnippet c := by
  obtain ⟨l', f1, f2, f3⟩ := runUpdates_pairs css (initMemory k) [] rfl rfl
  constructor
  · rw [f1, f2]
    simp
  · intro i hi hj
    have hi' : i < l'.length := by
      have hx := hi
      rw [f1] at hx
      simpa using hx
    have hp := get_map_eq Prod.fst l' _ f1 i hi hi'
    have hs := get_map_eq Prod.snd l' _ f2 i hj hi'
    have hm : l'.get ⟨i, hi'⟩ ∈ l' := List.get_mem l' i hi'
    rcases f3 _ hm with hx | ⟨c, hc, he⟩
    · exact absurd hx (List.not_mem_nil _)
    · refine ⟨c, hc, ?_, ?_⟩
      · rw [hp, he]
      · rw [hs, he]

/-- Witness for C9: after one update retrieving `[A]` on an empty `k = 2`
window, position 0 holds A's page paired with A's block. -/
theorem C9_pages_snippets_sync_witness :
    ∃ c, c ∈ ([[exA]] : List (List Snippet)).join
      ∧ (runUpdates (initMemory 2) [[exA]]).pages.get ⟨0, by decide⟩ = c.page
      ∧ (runUpdates (initMemory 2) [[exA]]).snippets.get ⟨0, by decide⟩
          = formatSnippet c :=
  (C9_pages_snippets_sync 2 [[exA]]).2 0 (by decide) (by decide)

/-- Claim C10: deduplication also applies within a single retrieval batch —
the membership check runs against the held list as already extended by the
batch's earlier candidates, so the held blocks stay pairwise distinct, and a
batch containing the same snippet twice (here `[A, A, D]` with `k = 3`) admits
A's block only once, at its first occurrence. -/
theorem C10_within_batch_dedup :
    (∀ (m : Memory) (cands : List Snippet), m.snippets.Nodup →
      (load_memory_variables m cands).1.snippets.Nodup)
    ∧ (load_memory_variables (initMemory 3) [exA, exA, exD]).1.snippets
        = [formatSnippet exD, formatSnippet exA] := by
  exact ⟨fun m cands h => load_snippets_nodup m cands h, by decide⟩

/-- Witness for C10: the concrete duplicate batch, starting from the (trivially
duplicate-free) empty window, ends in a duplicate-free held list. -/
theorem C10_within_batch_dedup_witness :
    (load_memory_variables (initMemory 3) [exA, exA, exD]).1.snippets.Nodup :=
  C10_within_batch_dedup.1 (initMemory 3) [exA, exA, exD] (by decide)
